import Mathlib

/-!
Verification development for the twmap extraction-and-rewrite engine.

The processor (`src/processor.ts`) and CLI entry (`src/index.ts`) are embedded
directly from their TypeScript source.  The `FileParser`, `ClassNameGenerator`
and `CSSGenerator` modules are referenced by the processor but their sources
are not part of the snapshot; where a property depends on their behaviour they
are modelled from the specification (each such definition carries a
`Modelled from the spec:` doc comment).

JavaScript `Map` and `Set` preserve insertion order; both are embedded as
association lists / duplicate-free lists with explicit insertion-order
semantics.
-/

namespace Twmap

/-- A parse result as produced by `FileParser.parseFile` (shape from
`src/types` usage in `src/processor.ts`): file path, the safe class-strings in
document order, a success flag and an optional error message. -/
structure ParseResult where
  filePath : String
  classNames : List String
  success : Bool
  error : Option String
deriving DecidableEq

/-- A `(original, generated)` pair, `ClassMapping` from `src/types`. -/
structure ClassMapping where
  original : String
  generated : String
deriving DecidableEq

/-- JS `Map.prototype.has` on an insertion-ordered association list. -/
def mapHas (m : List (String × String)) (k : String) : Bool :=
  (m.find? (fun p => p.1 == k)).isSome

/-- JS `Map.prototype.get` on an insertion-ordered association list. -/
def mapFind (m : List (String × String)) (k : String) : Option String :=
  (m.find? (fun p => p.1 == k)).map Prod.snd

/-- JS `Map.prototype.set`: overwrite in place when the key exists, else
append (insertion order is preserved). -/
def mapSet (m : List (String × String)) (k v : String) : List (String × String) :=
  if mapHas m k then m.map (fun p => if p.1 == k then (k, v) else p)
  else m ++ [(k, v)]

/-- JS `Set.prototype.add` on an insertion-ordered duplicate-free list. -/
def setAdd (s : List String) (x : String) : List String :=
  if x ∈ s then s else s ++ [x]

/-- Collecting every class name of every parse result into a JS `Set`
(`generateMappings`, src/processor.ts lines 211-218): nested `forEach`/`add`. -/
def collectClassNames (results : List ParseResult) : List String :=
  results.foldl (fun s r => r.classNames.foldl setAdd s) []

/-! ### Basic facts about the insertion-ordered set -/

theorem setAdd_nodup {s : List String} (h : s.Nodup) (x : String) :
    (setAdd s x).Nodup := by
  unfold setAdd
  split
  · exact h
  · next hx => simpa [List.nodup_append, h] using hx

theorem mem_setAdd {s : List String} {x y : String} :
    y ∈ setAdd s x ↔ y ∈ s ∨ y = x := by
  unfold setAdd
  split
  · next hx =>
    constructor
    · exact Or.inl
    · rintro (h | rfl) <;> [exact h; exact hx]
  · simp [List.mem_append]

theorem foldl_setAdd_nodup (xs : List String) {s : List String} (h : s.Nodup) :
    (xs.foldl setAdd s).Nodup := by
  induction xs generalizing s with
  | nil => exact h
  | cons x xs ih => exact ih (setAdd_nodup h x)

theorem mem_foldl_setAdd (xs : List String) (s : List String) (y : String) :
    y ∈ xs.foldl setAdd s ↔ y ∈ s ∨ y ∈ xs := by
  induction xs generalizing s with
  | nil => simp
  | cons x xs ih =>
    simp only [List.foldl_cons, ih (setAdd s x), mem_setAdd, List.mem_cons]
    tauto

theorem foldl_setAdd_of_fresh (xs : List String) {s : List String}
    (hnd : xs.Nodup) (hfresh : ∀ x ∈ xs, x ∉ s) :
    xs.foldl setAdd s = s ++ xs := by
  induction xs generalizing s with
  | nil => simp
  | cons x xs ih =>
    have hx : x ∉ s := hfresh x (List.mem_cons_self x xs)
    have hstep : setAdd s x = s ++ [x] := by simp [setAdd, hx]
    have hrest : ∀ y ∈ xs, y ∉ s ++ [x] := by
      intro y hy
      have hys : y ∉ s := hfresh y (List.mem_cons_of_mem _ hy)
      have hyx : y ≠ x := by
        intro h; exact (List.nodup_cons.mp hnd).1 (h ▸ hy)
      simp [List.mem_append, hys, hyx]
    rw [List.foldl_cons, hstep, ih (List.nodup_cons.mp hnd).2 hrest,
      List.append_assoc]
    rfl

theorem collectClassNames_nodup (results : List ParseResult) :
    (collectClassNames results).Nodup := by
  unfold collectClassNames
  generalize hs : ([] : List String) = s
  have hnd : s.Nodup := by subst hs; exact List.nodup_nil
  clear hs
  induction results generalizing s with
  | nil => exact hnd
  | cons r rs ih => exact ih _ (foldl_setAdd_nodup _ hnd)

/-! ### The name generator, modelled from the spec

`src/generator.ts` (class `ClassNameGenerator`, methods `generateClassName`
and `reset`) is not part of the snapshot; only its callers in
`src/processor.ts` are.  It is modelled from spec §4.3. -/

/-- The three generation modes of spec §4.3 / §6. -/
inductive Mode where
  | hash
  | incremental
  | readable
deriving DecidableEq

/-- Modelled from the spec: the `readable` slug — "derive a human-skimmable
slug from the class-string by stripping non-alphanumeric separators and
truncating to a bounded length" (§4.3). -/
def readableSlug (s : String) : String :=
  String.mk ((s.data.filter Char.isAlphanum).take 10)

/-- Modelled from the spec: the mode-dependent candidate short name before
collision disambiguation (§4.3).  `digest` abstracts the stable hash digest
("a stable, collision-resistant digest ... truncate to a short fixed width");
the `incremental` candidate is the prefixed next counter value and the
`readable` candidate is the prefixed slug; the prefix is prepended verbatim. -/
def rawCandidate (mode : Mode) (pref : String) (digest : String → String)
    (counter : Nat) (s : String) : String :=
  match mode with
  | .hash => pref ++ digest s
  | .incremental => pref ++ toString counter
  | .readable => pref ++ readableSlug s

/-- Length bound over a list of strings (used by the disambiguation step). -/
def maxLen (l : List String) : Nat :=
  l.foldr (fun s acc => max s.length acc) 0

/-- Modelled from the spec: deterministic collision disambiguation — "on
truncation collision between two different class-strings, disambiguate
deterministically (e.g. extend the truncation length or append a small
per-collision suffix) so the bijection invariant holds" (§4.3).  If the
candidate is already allocated, extend it past the length of every allocated
name, which guarantees freshness. -/
def disambiguate (base : String) (allocated : List String) : String :=
  if base ∈ allocated then
    base ++ String.mk (List.replicate (maxLen allocated + 1) 'x')
  else base

/-- Modelled from the spec: the generator's "internal allocation table"
(§5, §9) — the names allocated so far plus the append-only counter for
`incremental` mode. -/
structure GenState where
  allocated : List String
  counter : Nat
deriving DecidableEq

/-- Modelled from the spec: `ClassNameGenerator.generateClassName` — produce
the mode candidate, disambiguate it against every name allocated so far,
record the allocation and advance the counter (§4.3). -/
def generateClassName (mode : Mode) (pref : String) (digest : String → String)
    (st : GenState) (s : String) : String × GenState :=
  let name := disambiguate (rawCandidate mode pref digest st.counter s) st.allocated
  (name, ⟨st.allocated ++ [name], st.counter + 1⟩)

theorem le_maxLen {l : List String} {s : String} (h : s ∈ l) :
    s.length ≤ maxLen l := by
  induction l with
  | nil => cases h
  | cons t ts ih =>
    rcases List.mem_cons.mp h with rfl | h
    · exact le_max_left _ _
    · exact le_trans (ih h) (le_max_right _ _)

/-- The disambiguated name is never one of the already-allocated names. -/
theorem disambiguate_fresh (base : String) (allocated : List String) :
    disambiguate base allocated ∉ allocated := by
  unfold disambiguate
  split
  · intro hmem
    have hlen : (base ++ String.mk (List.replicate (maxLen allocated + 1) 'x')).length
        ≤ maxLen allocated := le_maxLen hmem
    rw [String.length_append] at hlen
    have : (String.mk (List.replicate (maxLen allocated + 1) 'x')).length
        = maxLen allocated + 1 := by
      show (List.replicate (maxLen allocated + 1) 'x').length = _
      simp
    omega
  · next h => exact h

/-! ### The processor's mapping-generation step (src/processor.ts 210-229) -/

/-- The processor state relevant to mapping generation: the `mappings` map and
the generator state. -/
structure ProcState where
  mappings : List (String × String)
  gen : GenState
deriving DecidableEq

/-- The fresh processor state: `mappings = new Map()` and a newly constructed
generator (constructor, src/processor.ts lines 14-24). -/
def initialProcState : ProcState := ⟨[], ⟨[], 0⟩⟩

/-- One step of the second loop of `generateMappings` (src/processor.ts lines
221-226): skip class names that already have a mapping, otherwise ask the
generator for a name and record it. -/
def mappingStep (mode : Mode) (pref : String) (digest : String → String)
    (st : ProcState) (className : String) : ProcState :=
  if mapHas st.mappings className then st
  else
    let (generatedName, g) := generateClassName mode pref digest st.gen className
    ⟨mapSet st.mappings className generatedName, g⟩

/-- `TwmapProcessor.generateMappings` (src/processor.ts lines 210-229):
collect all class names of the given parse results into a `Set`, then fold the
mapping step over that set in insertion order. -/
def generateMappings (mode : Mode) (pref : String) (digest : String → String)
    (st : ProcState) (results : List ParseResult) : ProcState :=
  (collectClassNames results).foldl (mappingStep mode pref digest) st

/-! ### The mapping invariant (claim C1) -/

theorem mapHas_iff_mem_keys (m : List (String × String)) (k : String) :
    mapHas m k = true ↔ k ∈ m.map Prod.fst := by
  unfold mapHas
  rw [List.find?_isSome]
  constructor
  · rintro ⟨p, hp, hk⟩
    exact List.mem_map.mpr ⟨p, hp, beq_iff_eq.mp hk⟩
  · intro h
    rcases List.mem_map.mp h with ⟨p, hp, hk⟩
    exact ⟨p, hp, beq_iff_eq.mpr hk⟩

theorem mapSet_of_not_has {m : List (String × String)} {k : String}
    (h : mapHas m k = false) (v : String) : mapSet m k v = m ++ [(k, v)] := by
  unfold mapSet
  rw [h]
  simp

/-- Keys evolve under `mappingStep` exactly like insertion-ordered set add. -/
theorem mappingStep_keys (mode : Mode) (pref : String) (digest : String → String)
    (st : ProcState) (cn : String) :
    (mappingStep mode pref digest st cn).mappings.map Prod.fst
      = setAdd (st.mappings.map Prod.fst) cn := by
  unfold mappingStep
  rcases hhas : mapHas st.mappings cn with _ | _
  · have hmem : cn ∉ st.mappings.map Prod.fst := by
      intro hc
      exact absurd ((mapHas_iff_mem_keys _ _).mpr hc) (by simp [hhas])
    simp only [hhas, Bool.false_eq_true, if_false, mapSet_of_not_has hhas]
    simp [setAdd, hmem]
  · have hmem := (mapHas_iff_mem_keys _ _).mp hhas
    simp [hhas, setAdd, hmem]

/-- The allocation invariant: the generator has allocated exactly the values
of the mapping (one allocation per distinct class-string, in order), and no
two entries share a generated name. -/
def AllocInv (st : ProcState) : Prop :=
  st.gen.allocated = st.mappings.map Prod.snd
    ∧ (st.mappings.map Prod.snd).Nodup

theorem mappingStep_allocInv (mode : Mode) (pref : String)
    (digest : String → String) {st : ProcState} (h : AllocInv st) (cn : String) :
    AllocInv (mappingStep mode pref digest st cn) := by
  obtain ⟨halloc, hnd⟩ := h
  unfold mappingStep
  rcases hhas : mapHas st.mappings cn with _ | _
  · simp only [hhas, Bool.false_eq_true, if_false]
    have hfresh := disambiguate_fresh
      (rawCandidate mode pref digest st.gen.counter cn) st.gen.allocated
    constructor
    · simp [generateClassName, mapSet_of_not_has hhas, halloc]
    · simp only [generateClassName, mapSet_of_not_has hhas, List.map_append]
      rw [List.nodup_append]
      refine ⟨hnd, by simp, ?_⟩
      intro a ha hb
      simp only [List.map_cons, List.map_nil, List.mem_singleton] at hb
      subst hb
      exact hfresh (halloc ▸ ha)
  · simpa [hhas] using ⟨halloc, hnd⟩

theorem foldl_mappingStep_keys (mode : Mode) (pref : String)
    (digest : String → String) (cns : List String) (st : ProcState) :
    (cns.foldl (mappingStep mode pref digest) st).mappings.map Prod.fst
      = cns.foldl setAdd (st.mappings.map Prod.fst) := by
  induction cns generalizing st with
  | nil => rfl
  | cons c cs ih =>
    rw [List.foldl_cons, List.foldl_cons, ih, mappingStep_keys]

theorem foldl_mappingStep_allocInv (mode : Mode) (pref : String)
    (digest : String → String) (cns : List String) {st : ProcState}
    (h : AllocInv st) :
    AllocInv (cns.foldl (mappingStep mode pref digest) st) := by
  induction cns generalizing st with
  | nil => exact h
  | cons c cs ih => exact ih (mappingStep_allocInv mode pref digest h c)

/-- In a mapping whose values are duplicate-free, distinct keys look up
distinct values. -/
theorem mapFind_injective {m : List (String × String)}
    (hnd : (m.map Prod.snd).Nodup) {a b na nb : String}
    (ha : mapFind m a = some na) (hb : mapFind m b = some nb)
    (hab : a ≠ b) : na ≠ nb := by
  have hmema : (a, na) ∈ m := by
    unfold mapFind at ha
    rcases hfa : m.find? (fun p => p.1 == a) with _ | p
    · rw [hfa] at ha; cases ha
    · rw [hfa] at ha
      have hp1 : p.1 = a := by simpa using List.find?_some hfa
      have hp2 : p.2 = na := by simpa using ha
      have := List.mem_of_find?_eq_some hfa
      rw [← hp1, ← hp2]; simpa using this
  have hmemb : (b, nb) ∈ m := by
    unfold mapFind at hb
    rcases hfb : m.find? (fun p => p.1 == b) with _ | p
    · rw [hfb] at hb; cases hb
    · rw [hfb] at hb
      have hp1 : p.1 = b := by simpa using List.find?_some hfb
      have hp2 : p.2 = nb := by simpa using hb
      have := List.mem_of_find?_eq_some hfb
      rw [← hp1, ← hp2]; simpa using this
  intro hval
  subst hval
  apply hab
  clear ha hb
  induction m with
  | nil => cases hmema
  | cons p rest ih =>
    rcases List.mem_cons.mp hmema with rfl | hma
    · rcases List.mem_cons.mp hmemb with heq | hmb
      · injection heq with h1 _
        exact h1.symm
      · exfalso
        have : na ∈ rest.map Prod.snd := List.mem_map.mpr ⟨(b, na), hmb, rfl⟩
        exact (List.nodup_cons.mp hnd).1 this
    · rcases List.mem_cons.mp hmemb with rfl | hmb
      · exfalso
        have : na ∈ rest.map Prod.snd := List.mem_map.mpr ⟨(a, na), hma, rfl⟩
        exact (List.nodup_cons.mp hnd).1 this
      · exact ih (List.nodup_cons.mp hnd).2 hma hmb

/-- C1: over one run starting from a fresh processor, every distinct
class-string of the successfully parsed files gets exactly one entry (the
mapping's keys are exactly the distinct class-strings, in first-encounter
order, each once), the generator performed exactly one allocation per entry
(so an already-mapped class-string never triggers a second allocation), and
distinct class-strings receive distinct short names. -/
theorem generateMappings_one_name_per_class (mode : Mode) (pref : String)
    (digest : String → String) (results : List ParseResult) :
    (generateMappings mode pref digest initialProcState
        (results.filter (fun r => r.success))).mappings.map Prod.fst
      = collectClassNames (results.filter (fun r => r.success))
    ∧ (generateMappings mode pref digest initialProcState
        (results.filter (fun r => r.success))).gen.allocated
      = (generateMappings mode pref digest initialProcState
        (results.filter (fun r => r.success))).mappings.map Prod.snd
    ∧ ∀ a na b nb,
        mapFind (generateMappings mode pref digest initialProcState
          (results.filter (fun r => r.success))).mappings a = some na →
        mapFind (generateMappings mode pref digest initialProcState
          (results.filter (fun r => r.success))).mappings b = some nb →
        a ≠ b → na ≠ nb := by
  set rs := results.filter (fun r => r.success) with hrs
  have hinv : AllocInv (generateMappings mode pref digest initialProcState rs) :=
    foldl_mappingStep_allocInv mode pref digest _ ⟨rfl, List.nodup_nil⟩
  refine ⟨?_, hinv.1, fun a na b nb ha hb hab => mapFind_injective hinv.2 ha hb hab⟩
  unfold generateMappings
  rw [foldl_mappingStep_keys]
  show (collectClassNames rs).foldl setAdd [] = collectClassNames rs
  rw [foldl_setAdd_of_fresh _ (collectClassNames_nodup rs) (by simp)]
  simp

/-! ### Canonical form and stylesheet deduplication (src/processor.ts 248-274)

`generateCSSFile` normalizes each original class-string with
`original.split(/\s+/).filter(cls => cls.trim().length > 0).sort().join(' ')`.
Splitting on the regex `\s+` and dropping empty tokens is tokenization into
maximal non-whitespace runs; JS `sort()` on strings orders lexicographically
by code unit, which an insertion sort under the same order reproduces (sorted
permutations under a total order are unique). -/

/-- Lexicographic code-point comparison on character lists (the order JS
`Array.prototype.sort` uses on strings; identical on the ASCII class tokens
involved). -/
def lexLe : List Char → List Char → Bool
  | [], _ => true
  | _ :: _, [] => false
  | c :: cs, d :: ds =>
    if c.toNat < d.toNat then true
    else if d.toNat < c.toNat then false
    else lexLe cs ds

/-- `strLe s t` decides `s ≤ t` in JS string order. -/
def strLe (s t : String) : Bool := lexLe s.data t.data

/-- Insert into a sorted list (implements JS `sort()` extensionally). -/
def insertSorted (x : String) : List String → List String
  | [] => [x]
  | y :: ys => if strLe x y then x :: y :: ys else y :: insertSorted x ys

/-- Ascending sort of string tokens, as JS `Array.prototype.sort()`. -/
def sortStrings (l : List String) : List String := l.foldr insertSorted []

/-- Maximal non-whitespace runs of a character list (`split(/\s+/)` followed
by dropping empty tokens). -/
def wsTokensAux : List Char → List Char → List (List Char)
  | [], acc => if acc.isEmpty then [] else [acc.reverse]
  | c :: cs, acc =>
    if c.isWhitespace then
      if acc.isEmpty then wsTokensAux cs []
      else acc.reverse :: wsTokensAux cs []
    else wsTokensAux cs (c :: acc)

/-- The whitespace-separated tokens of a class-string, empty tokens dropped. -/
def splitTokens (s : String) : List String := (wsTokensAux s.data []).map String.mk

/-- `join(' ')`. -/
def joinSpace : List String → String
  | [] => ""
  | [x] => x
  | x :: xs => x ++ " " ++ joinSpace xs

/-- The canonical form of `generateCSSFile` (src/processor.ts lines 259-263):
tokens split on whitespace, empties dropped, sorted lexically, re-joined by
single spaces. -/
def canonicalForm (s : String) : String := joinSpace (sortStrings (splitTokens s))

/-- The `seenApply` loop of `generateCSSFile` (src/processor.ts lines
256-267): fold over the mapping in insertion order, keeping for each canonical
form the first `(original, generated)` pair. -/
def dedupApplyPairs (m : List (String × String)) : List (String × ClassMapping) :=
  m.foldl (fun seen p =>
    let normalized := canonicalForm p.1
    if (seen.find? (fun q => q.1 == normalized)).isSome then seen
    else seen ++ [(normalized, ⟨p.1, p.2⟩)]) []

/-- `Array.from(seenApply.values())` (src/processor.ts line 268): the rules
that will be emitted, in first-encounter order of canonical forms. -/
def dedupApply (m : List (String × String)) : List ClassMapping :=
  (dedupApplyPairs m).map Prod.snd

theorem find?_key_isSome_iff {β : Type} (l : List (String × β)) (k : String) :
    (l.find? (fun q => q.1 == k)).isSome = true ↔ k ∈ l.map Prod.fst := by
  rw [List.find?_isSome]
  constructor
  · rintro ⟨p, hp, hk⟩
    exact List.mem_map.mpr ⟨p, hp, beq_iff_eq.mp hk⟩
  · intro h
    rcases List.mem_map.mp h with ⟨p, hp, hk⟩
    exact ⟨p, hp, beq_iff_eq.mpr hk⟩

/-- The fold invariant of the `seenApply` loop, stated over an arbitrary
already-processed prefix. -/
theorem dedupApplyPairs_fold_spec (m processed : List (String × String))
    (seen : List (String × ClassMapping))
    (hkeys : seen.map Prod.fst
      = (processed.map (fun p => canonicalForm p.1)).foldl setAdd [])
    (hval : ∀ q ∈ seen, q.1 = canonicalForm q.2.original
      ∧ processed.find? (fun p => canonicalForm p.1 == q.1)
          = some (q.2.original, q.2.generated)) :
    ((m.foldl (fun seen p =>
        let normalized := canonicalForm p.1
        if (seen.find? (fun q => q.1 == normalized)).isSome then seen
        else seen ++ [(normalized, ⟨p.1, p.2⟩)]) seen).map Prod.fst
      = ((processed ++ m).map (fun p => canonicalForm p.1)).foldl setAdd [])
    ∧ ∀ q ∈ (m.foldl (fun seen p =>
        let normalized := canonicalForm p.1
        if (seen.find? (fun q => q.1 == normalized)).isSome then seen
        else seen ++ [(normalized, ⟨p.1, p.2⟩)]) seen),
        q.1 = canonicalForm q.2.original
        ∧ (processed ++ m).find? (fun p => canonicalForm p.1 == q.1)
            = some (q.2.original, q.2.generated) := by
  induction m generalizing processed seen with
  | nil =>
    simp only [List.foldl_nil, List.append_nil]
    exact ⟨hkeys, hval⟩
  | cons p ms ih =>
    have hfoldapp :
        ((processed ++ [p]).map (fun q => canonicalForm q.1)).foldl setAdd []
          = setAdd ((processed.map (fun q => canonicalForm q.1)).foldl setAdd [])
              (canonicalForm p.1) := by
      rw [List.map_append, List.foldl_append]
      rfl
    have happlist : processed ++ p :: ms = (processed ++ [p]) ++ ms := by simp
    rcases hmem : ((seen.find? (fun q => q.1 == canonicalForm p.1)).isSome) with _ | _
    · -- canonical form not seen yet: the pair is appended
      have hnotmem : canonicalForm p.1 ∉ seen.map Prod.fst := by
        intro hc
        exact absurd ((find?_key_isSome_iff _ _).mpr hc) (by simp [hmem])
      have hnone : processed.find? (fun q => canonicalForm q.1 == canonicalForm p.1)
          = none := by
        apply List.find?_eq_none.mpr
        intro q hq
        intro hbeq
        apply hnotmem
        rw [hkeys, mem_foldl_setAdd]
        exact Or.inr (List.mem_map.mpr ⟨q, hq, beq_iff_eq.mp hbeq⟩)
      have hstep : (ms.foldl (fun seen p =>
          let normalized := canonicalForm p.1
          if (seen.find? (fun q => q.1 == normalized)).isSome then seen
          else seen ++ [(normalized, ⟨p.1, p.2⟩)])
            (seen ++ [(canonicalForm p.1, ⟨p.1, p.2⟩)])) =
          ((p :: ms).foldl (fun seen p =>
          let normalized := canonicalForm p.1
          if (seen.find? (fun q => q.1 == normalized)).isSome then seen
          else seen ++ [(normalized, ⟨p.1, p.2⟩)]) seen) := by
        simp [hmem]
      rw [happlist, ← hstep]
      apply ih (processed ++ [p]) (seen ++ [(canonicalForm p.1, ClassMapping.mk p.1 p.2)])
      · have hnot2 : canonicalForm p.1
            ∉ (processed.map (fun q => canonicalForm q.1)).foldl setAdd [] := by
          rw [← hkeys]; exact hnotmem
        rw [hfoldapp, List.map_append, hkeys]
        simp [setAdd, hnot2]
      · intro q hq
        rcases List.mem_append.mp hq with hq | hq
        · obtain ⟨h1, h2⟩ := hval q hq
          refine ⟨h1, ?_⟩
          rw [List.find?_append, h2]
          rfl
        · rcases List.mem_singleton.mp hq with rfl
          refine ⟨rfl, ?_⟩
          rw [List.find?_append, hnone]
          simp
    · -- canonical form already seen: the pair is dropped
      have hstep : (ms.foldl (fun seen p =>
          let normalized := canonicalForm p.1
          if (seen.find? (fun q => q.1 == normalized)).isSome then seen
          else seen ++ [(normalized, ⟨p.1, p.2⟩)]) seen) =
          ((p :: ms).foldl (fun seen p =>
          let normalized := canonicalForm p.1
          if (seen.find? (fun q => q.1 == normalized)).isSome then seen
          else seen ++ [(normalized, ⟨p.1, p.2⟩)]) seen) := by
        simp [hmem]
      have hmemkeys : canonicalForm p.1 ∈ seen.map Prod.fst :=
        (find?_key_isSome_iff _ _).mp hmem
      rw [happlist, ← hstep]
      apply ih (processed ++ [p]) seen
      · rw [hfoldapp, hkeys]
        have : canonicalForm p.1 ∈ (processed.map (fun q => canonicalForm q.1)).foldl setAdd [] := by
          rw [← hkeys]; exact hmemkeys
        simp [setAdd, this]
      · intro q hq
        obtain ⟨h1, h2⟩ := hval q hq
        refine ⟨h1, ?_⟩
        rw [List.find?_append, h2]
        rfl

/-- C1: in one run from a fresh processor, the mapping's keys are exactly the
distinct class-strings of the successfully parsed files in first-encounter
order (each assigned exactly one short name, with repeats — also across files
— resolving to that entry), the generator allocated exactly once per entry,
and distinct class-strings receive distinct short names. -/
theorem mapping_one_short_name_per_class_string (mode : Mode) (pref : String)
    (digest : String → String) (results : List ParseResult) :
    (generateMappings mode pref digest initialProcState
        (results.filter (fun r => r.success))).mappings.map Prod.fst
      = collectClassNames (results.filter (fun r => r.success))
    ∧ (generateMappings mode pref digest initialProcState
        (results.filter (fun r => r.success))).gen.allocated
      = (generateMappings mode pref digest initialProcState
        (results.filter (fun r => r.success))).mappings.map Prod.snd
    ∧ ∀ a na b nb,
        mapFind (generateMappings mode pref digest initialProcState
          (results.filter (fun r => r.success))).mappings a = some na →
        mapFind (generateMappings mode pref digest initialProcState
          (results.filter (fun r => r.success))).mappings b = some nb →
        a ≠ b → na ≠ nb :=
  generateMappings_one_name_per_class mode pref digest results

/-- Witness for C1: a run over two files sharing the class-string `"a"` —
`"a"` resolves to `tw-0` both times, `"b"` to `tw-1`, and the theorem yields
their distinctness. -/
theorem mapping_one_short_name_per_class_string_witness :
    mapFind (generateMappings .incremental "tw-" (fun _ => "") initialProcState
      ([⟨"A.tsx", ["a"], true, none⟩, ⟨"B.tsx", ["a", "b"], true, none⟩].filter
        (fun r => r.success))).mappings "a" = some "tw-0"
    ∧ mapFind (generateMappings .incremental "tw-" (fun _ => "") initialProcState
      ([⟨"A.tsx", ["a"], true, none⟩, ⟨"B.tsx", ["a", "b"], true, none⟩].filter
        (fun r => r.success))).mappings "b" = some "tw-1"
    ∧ ("tw-0" : String) ≠ "tw-1" := by
  have h := mapping_one_short_name_per_class_string .incremental "tw-" (fun _ => "")
    [⟨"A.tsx", ["a"], true, none⟩, ⟨"B.tsx", ["a", "b"], true, none⟩]
  exact ⟨by decide, by decide,
    h.2.2 "a" "tw-0" "b" "tw-1" (by decide) (by decide) (by decide)⟩

/-- C3: stylesheet emission groups the mapping by canonical form — the rules
are keyed by the distinct canonical forms in mapping iteration order, each
canonical form yielding exactly one rule whose pair is the first matching pair
of the iteration; and concretely, `"flex p-4"` and `"p-4 flex"` in hash mode
receive two distinct short names but produce a single stylesheet rule keyed by
the first pair. -/
theorem generateCSSFile_one_rule_per_canonical_form (m : List (String × String)) :
    ((dedupApplyPairs m).map Prod.fst
        = (m.map (fun p => canonicalForm p.1)).foldl setAdd [])
    ∧ (∀ cm ∈ dedupApply m,
        m.find? (fun p => canonicalForm p.1 == canonicalForm cm.original)
          = some (cm.original, cm.generated))
    ∧ ((generateMappings .hash "tw-" (fun s => s) initialProcState
          [⟨"f.tsx", ["flex p-4", "p-4 flex"], true, none⟩]).mappings.map Prod.snd
        = ["tw-flex p-4", "tw-p-4 flex"]
      ∧ dedupApply (generateMappings .hash "tw-" (fun s => s) initialProcState
          [⟨"f.tsx", ["flex p-4", "p-4 flex"], true, none⟩]).mappings
        = [⟨"flex p-4", "tw-flex p-4"⟩]) := by
  have h := dedupApplyPairs_fold_spec m [] [] rfl (by intro q hq; cases hq)
  simp only [List.nil_append] at h
  refine ⟨h.1, ?_, by decide, by decide⟩
  intro cm hcm
  rcases List.mem_map.mp hcm with ⟨q, hq, rfl⟩
  obtain ⟨h1, h2⟩ := h.2 q hq
  rw [← h1]
  exact h2

/-- Witness for C3: a two-entry mapping whose originals reorder the same
tokens yields one rule, recording the first pair. -/
theorem generateCSSFile_one_rule_per_canonical_form_witness :
    dedupApply [("flex p-4", "n1"), ("p-4 flex", "n2")] = [⟨"flex p-4", "n1"⟩]
    ∧ [("flex p-4", "n1"), ("p-4 flex", "n2")].find?
        (fun p => canonicalForm p.1 == canonicalForm "flex p-4")
      = some ("flex p-4", "n1") := by
  have h := generateCSSFile_one_rule_per_canonical_form
    [("flex p-4", "n1"), ("p-4 flex", "n2")]
  exact ⟨by decide, h.2.1 ⟨"flex p-4", "n1"⟩ (by decide)⟩

/-! ### Merge order and reproducibility (claim C4)

`findFiles` (src/processor.ts 189-208) returns `Array.from(allFiles)` in glob
enumeration order and `generateMappings` folds over the parse results in that
same order: no sort by file path (or any other stable order) is applied
anywhere before name generation. -/

/-- Counterexample to C4: the same two files enumerated in the two possible
discovery orders give the class-string `"a"` the incremental short name
`tw-0` in one run and `tw-1` in the other — the merged collection is not put
into an enumeration-order-independent order before name generation. -/
theorem no_stable_merge_order_counterexample :
    ([⟨"B.tsx", ["b"], true, none⟩, ⟨"A.tsx", ["a"], true, none⟩] : List ParseResult)
      = ([⟨"A.tsx", ["a"], true, none⟩, ⟨"B.tsx", ["b"], true, none⟩] : List ParseResult).reverse
    ∧ mapFind (generateMappings .incremental "tw-" (fun _ => "") initialProcState
        (([⟨"A.tsx", ["a"], true, none⟩, ⟨"B.tsx", ["b"], true, none⟩]
          : List ParseResult).filter (fun r => r.success))).mappings "a"
      = some "tw-0"
    ∧ mapFind (generateMappings .incremental "tw-" (fun _ => "") initialProcState
        (([⟨"B.tsx", ["b"], true, none⟩, ⟨"A.tsx", ["a"], true, none⟩]
          : List ParseResult).filter (fun r => r.success))).mappings "a"
      = some "tw-1" :=
  ⟨by decide, by decide, by decide⟩

theorem string_append_left_cancel {p a b : String} (h : p ++ a = p ++ b) :
    a = b := by
  have hd : p.data ++ a.data = p.data ++ b.data := by
    have := congrArg String.data h
    simpa [String.data_append] using this
  have hab := List.append_cancel_left hd
  cases a; cases b
  exact congrArg String.mk hab

/-- The fold invariant behind hash-mode order independence: with a
collision-free digest every entry is `(k, pref ++ digest k)`. -/
theorem hash_fold_inv (pref : String) (digest : String → String)
    (hinj : ∀ a b, digest a = digest b → a = b) (cns : List String)
    (st : ProcState)
    (hmap : st.mappings
      = (st.mappings.map Prod.fst).map (fun k => (k, pref ++ digest k)))
    (halloc : st.gen.allocated = st.mappings.map Prod.snd) :
    (cns.foldl (mappingStep .hash pref digest) st).mappings
      = ((cns.foldl (mappingStep .hash pref digest) st).mappings.map
          Prod.fst).map (fun k => (k, pref ++ digest k))
    ∧ (cns.foldl (mappingStep .hash pref digest) st).gen.allocated
      = (cns.foldl (mappingStep .hash pref digest) st).mappings.map Prod.snd := by
  induction cns generalizing st with
  | nil => exact ⟨hmap, halloc⟩
  | cons cn cs ih =>
    rw [List.foldl_cons]
    rcases hhas : mapHas st.mappings cn with _ | _
    · have hnotkey : cn ∉ st.mappings.map Prod.fst := by
        intro hc
        exact absurd ((mapHas_iff_mem_keys _ _).mpr hc) (by simp [hhas])
      have hbase : (rawCandidate .hash pref digest st.gen.counter cn)
          ∉ st.gen.allocated := by
        intro hmem
        rw [halloc] at hmem
        rcases List.mem_map.mp hmem with ⟨q, hq, hqv⟩
        have hqmem := hq
        rw [hmap] at hqmem
        rcases List.mem_map.mp hqmem with ⟨k, hk, hkq⟩
        have hqv2 : pref ++ digest k = pref ++ digest cn := by
          rw [← hkq] at hqv
          exact hqv
        have : k = cn := hinj _ _ (string_append_left_cancel hqv2)
        subst this
        apply hnotkey
        have : q.1 = k := by rw [← hkq]
        exact this ▸ List.mem_map.mpr ⟨q, hq, rfl⟩
      have hstep : mappingStep .hash pref digest st cn
          = ⟨st.mappings ++ [(cn, pref ++ digest cn)],
             ⟨st.gen.allocated ++ [pref ++ digest cn], st.gen.counter + 1⟩⟩ := by
        unfold mappingStep
        rw [hhas]
        simp only [Bool.false_eq_true, if_false, generateClassName,
          mapSet_of_not_has hhas]
        unfold disambiguate
        rw [if_neg hbase]
        rfl
      rw [hstep]
      apply ih
      · show st.mappings ++ [(cn, pref ++ digest cn)]
          = ((st.mappings ++ [(cn, pref ++ digest cn)]).map Prod.fst).map
              (fun k => (k, pref ++ digest k))
        rw [List.map_append, List.map_append]
        rw [hmap]
        simp
      · show st.gen.allocated ++ [pref ++ digest cn]
          = (st.mappings ++ [(cn, pref ++ digest cn)]).map Prod.snd
        rw [List.map_append, halloc]
        rfl
    · have hstep : mappingStep .hash pref digest st cn = st := by
        unfold mappingStep
        rw [hhas]
        simp
      rw [hstep]
      exact ih st hmap halloc

/-- Lookup in a mapping of shape `k ↦ (k, f k)`. -/
theorem mapFind_of_tabulated (f : String → String) (ks : List String)
    {s : String} (hs : s ∈ ks) :
    mapFind (ks.map (fun k => (k, f k))) s = some (f s) := by
  induction ks with
  | nil => cases hs
  | cons k ks ih =>
    rcases List.mem_cons.mp hs with rfl | hs
    · unfold mapFind
      simp
    · unfold mapFind
      rcases hks : (k == s) with _ | _
      · simp only [List.map_cons, List.find?_cons, hks]
        exact ih hs
      · have : k = s := beq_iff_eq.mp hks
        subst this
        simp

/-- C4 amended: no stable order is imposed (see the counterexample for
incremental mode); what does hold is that for a fixed parse-result order the
mapping is a pure function of the inputs, and in hash mode with a
collision-free digest every encountered class-string's short name is
`pref ++ digest s` — a value independent of the file enumeration order. -/
theorem hash_mapping_enumeration_order_independent (pref : String)
    (digest : String → String) (hinj : ∀ a b, digest a = digest b → a = b)
    (results : List ParseResult) (s : String)
    (hs : s ∈ collectClassNames (results.filter (fun r => r.success))) :
    mapFind (generateMappings .hash pref digest initialProcState
      (results.filter (fun r => r.success))).mappings s
      = some (pref ++ digest s) := by
  set rs := results.filter (fun r => r.success) with hrs
  have hinv := hash_fold_inv pref digest hinj (collectClassNames rs)
    initialProcState rfl rfl
  have hkeys : (generateMappings .hash pref digest initialProcState rs).mappings.map
      Prod.fst = collectClassNames rs := by
    unfold generateMappings
    rw [foldl_mappingStep_keys]
    show (collectClassNames rs).foldl setAdd [] = collectClassNames rs
    rw [foldl_setAdd_of_fresh _ (collectClassNames_nodup rs) (by simp)]
    simp
  show mapFind ((collectClassNames rs).foldl (mappingStep .hash pref digest)
    initialProcState).mappings s = some (pref ++ digest s)
  rw [hinv.1]
  apply mapFind_of_tabulated
  have : ((collectClassNames rs).foldl (mappingStep .hash pref digest)
      initialProcState).mappings.map Prod.fst = collectClassNames rs := hkeys
  rw [this]
  exact hs

/-- Witness for the amended C4: with the identity digest the class-string
`"a"` gets `tw-a` regardless of where in the enumeration it shows up. -/
theorem hash_mapping_enumeration_order_independent_witness :
    mapFind (generateMappings .hash "tw-" (fun t => t) initialProcState
      (([⟨"A.tsx", ["a"], true, none⟩] : List ParseResult).filter
        (fun r => r.success))).mappings "a" = some "tw-a" := by
  have h := hash_mapping_enumeration_order_independent "tw-" (fun t => t)
    (fun a b hab => hab) [⟨"A.tsx", ["a"], true, none⟩] "a" (by decide)
  rw [h]
  decide

/-! ### The run's file-system effects (src/processor.ts 26-187, 232-274)

The run is embedded as a function from the parse results to the list of
file-system writes it performs, or the error that aborts it.  The collaborator
modules are parameters: `replaceImpl` stands for
`FileParser.replaceClassNamesInFile` (an arbitrary fallible write action —
src/parser.ts is absent) and `cssGen` for `CSSGenerator.generateCSS` (an
arbitrary fallible stylesheet write — src/css-generator.ts is absent).  In
`process()` the update stage runs before CSS generation, and the surrounding
`try/catch` rethrows, so an error escaping `generateCSSFile` aborts the run. -/

/-- One file-system write. -/
structure FSWrite where
  path : String
  content : String
deriving DecidableEq

/-- Modelled from the spec: `FileParser.replaceClassNamesInFile`
(src/parser.ts is not in the snapshot).  "When `dry_run` is true, compute the
same plan and report it without writing" (§4.4); otherwise the rewritten text
is written back to the file.  `newText` abstracts the rewritten content per
path. -/
def replaceClassNamesInFileSpec (newText : String → String) (path : String)
    (dryRun : Bool) : Except String (List FSWrite) :=
  .ok (if dryRun then [] else [⟨path, newText path⟩])

/-- `TwmapProcessor.updateSourceFile` (src/processor.ts 232-246): skip files
with no class names, call the parser's replace with the processor's dry-run
flag, and catch (log, swallow) any error. -/
def updateSourceFileM (replaceImpl : String → Bool → Except String (List FSWrite))
    (dryRun : Bool) (r : ParseResult) : List FSWrite :=
  if r.classNames.length > 0 then
    match replaceImpl r.filePath dryRun with
    | .ok ws => ws
    | .error _ => []
  else []

/-- `TwmapProcessor.generateCSSFile` (src/processor.ts 248-274): in dry-run
report the destination and return without writing; otherwise deduplicate by
canonical form and hand the rules to the CSS generator (whose write failure
propagates — there is no catch here). -/
def generateCSSFileM (cssGen : List ClassMapping → Except String (List FSWrite))
    (dryRun : Bool) (mappings : List (String × String)) :
    Except String (List FSWrite) :=
  if dryRun then .ok []
  else cssGen (dedupApply mappings)

/-- `successfulParses` (src/processor.ts line 69). -/
def successfulParses (results : List ParseResult) : List ParseResult :=
  results.filter (fun r => r.success)

/-- The mapping state after `generateMappings(successfulParses)`
(src/processor.ts line 103). -/
def processMappings (mode : Mode) (pref : String) (digest : String → String)
    (results : List ParseResult) : ProcState :=
  generateMappings mode pref digest initialProcState (successfulParses results)

/-- The writes of the update stage (src/processor.ts 114-116): every
successful parse result is updated, failures per file are swallowed inside
`updateSourceFile`. -/
def processUpdateWrites (replaceImpl : String → Bool → Except String (List FSWrite))
    (dryRun : Bool) (results : List ParseResult) : List FSWrite :=
  ((successfulParses results).map (updateSourceFileM replaceImpl dryRun)).flatten

/-- The file-system effects of `TwmapProcessor.process` (src/processor.ts
26-187): update all successfully parsed files, then generate the stylesheet;
a stylesheet failure is rethrown by the catch block (line 183). -/
def processM (mode : Mode) (pref : String) (digest : String → String)
    (replaceImpl : String → Bool → Except String (List FSWrite))
    (cssGen : List ClassMapping → Except String (List FSWrite))
    (dryRun : Bool) (results : List ParseResult) :
    Except String (List FSWrite) :=
  match generateCSSFileM cssGen dryRun (processMappings mode pref digest results).mappings with
  | .ok cssWrites => .ok (processUpdateWrites replaceImpl dryRun results ++ cssWrites)
  | .error e => .error e

/-- C5: with the dry-run flag set the run performs no writes at all — the CSS
step returns immediately and every per-file update (which receives the
dry-run flag) only reports, so the whole run's write list is empty. -/
theorem dry_run_performs_no_writes (mode : Mode) (pref : String)
    (digest : String → String) (newText : String → String)
    (cssGen : List ClassMapping → Except String (List FSWrite))
    (results : List ParseResult) :
    processM mode pref digest (replaceClassNamesInFileSpec newText) cssGen
        true results = .ok []
    ∧ generateCSSFileM cssGen true
        (processMappings mode pref digest results).mappings = .ok []
    ∧ ∀ r : ParseResult,
        updateSourceFileM (replaceClassNamesInFileSpec newText) true r = [] := by
  have hupd : ∀ r : ParseResult,
      updateSourceFileM (replaceClassNamesInFileSpec newText) true r = [] := by
    intro r
    unfold updateSourceFileM replaceClassNamesInFileSpec
    split <;> simp
  have hflat : ∀ l : List ParseResult,
      (l.map (updateSourceFileM (replaceClassNamesInFileSpec newText) true)).flatten
        = [] := by
    intro l
    induction l with
    | nil => rfl
    | cons r rs ih => simp [hupd r, ih]
  refine ⟨?_, rfl, hupd⟩
  unfold processM generateCSSFileM
  simp only [if_pos rfl]
  unfold processUpdateWrites
  rw [hflat]
  rfl

/-- C6: per-file errors never abort the run — for an arbitrary (arbitrarily
failing) per-file replace implementation the run still reaches and completes
stylesheet generation — while a stylesheet write failure propagates out of
`process` and aborts the run with that error. -/
theorem per_file_errors_isolated_stylesheet_failure_fatal (mode : Mode)
    (pref : String) (digest : String → String)
    (replaceImpl : String → Bool → Except String (List FSWrite))
    (cssGen : List ClassMapping → Except String (List FSWrite))
    (results : List ParseResult) :
    (∀ ws, cssGen (dedupApply (processMappings mode pref digest results).mappings)
        = .ok ws →
      processM mode pref digest replaceImpl cssGen false results
        = .ok (processUpdateWrites replaceImpl false results ++ ws))
    ∧ (∀ e, cssGen (dedupApply (processMappings mode pref digest results).mappings)
        = .error e →
      processM mode pref digest replaceImpl cssGen false results = .error e) := by
  constructor
  · intro ws h
    unfold processM generateCSSFileM
    simp [h]
  · intro e h
    unfold processM generateCSSFileM
    simp [h]

/-- Witness for C6: a replace implementation that always throws does not keep
the run from succeeding, and a failing stylesheet write aborts the run with
its error. -/
theorem per_file_errors_isolated_stylesheet_failure_fatal_witness :
    processM .hash "tw-" (fun s => s) (fun _ _ => .error "EACCES")
        (fun _ => .ok [⟨"out.css", "css"⟩]) false
        [⟨"A.tsx", ["a"], true, none⟩] = .ok [⟨"out.css", "css"⟩]
    ∧ processM .hash "tw-" (fun s => s) (fun _ _ => .error "EACCES")
        (fun _ => .error "disk full") false
        [⟨"A.tsx", ["a"], true, none⟩] = .error "disk full" := by
  have h1 := (per_file_errors_isolated_stylesheet_failure_fatal .hash "tw-"
    (fun s => s) (fun _ _ => .error "EACCES") (fun _ => .ok [⟨"out.css", "css"⟩])
    [⟨"A.tsx", ["a"], true, none⟩]).1 [⟨"out.css", "css"⟩] rfl
  have h2 := (per_file_errors_isolated_stylesheet_failure_fatal .hash "tw-"
    (fun s => s) (fun _ _ => .error "EACCES") (fun _ => .error "disk full")
    [⟨"A.tsx", ["a"], true, none⟩]).2 "disk full" rfl
  refine ⟨?_, h2⟩
  rw [h1]
  rfl

/-- Altering only failed parse results leaves the successful ones — and hence
every later stage — unchanged. -/
theorem successfulParses_map (f : ParseResult → ParseResult)
    (hf1 : ∀ r, (f r).success = r.success)
    (hf2 : ∀ r, r.success = true → f r = r) (results : List ParseResult) :
    successfulParses (results.map f) = successfulParses results := by
  induction results with
  | nil => rfl
  | cons r rs ih =>
    unfold successfulParses at *
    simp only [List.map_cons, List.filter_cons]
    rcases hs : r.success with _ | _
    · rw [hf1 r, hs]
      simpa using ih
    · rw [hf1 r, hs, hf2 r hs]
      simpa using ih

/-- C7: a failed parse contributes zero class-strings and blocks nothing —
the mapping's keys come from the successful results only, replacing the
contents of every failed result changes nothing about the run, and every
successful file with class names still receives its rewrite-write. -/
theorem parse_failures_isolated (mode : Mode) (pref : String)
    (digest : String → String) (newText : String → String)
    (cssGen : List ClassMapping → Except String (List FSWrite))
    (results : List ParseResult) :
    ((processMappings mode pref digest results).mappings.map Prod.fst
        = collectClassNames (successfulParses results))
    ∧ (∀ f : ParseResult → ParseResult,
        (∀ r, (f r).success = r.success) →
        (∀ r, r.success = true → f r = r) →
        processM mode pref digest (replaceClassNamesInFileSpec newText) cssGen
            false (results.map f)
          = processM mode pref digest (replaceClassNamesInFileSpec newText)
            cssGen false results)
    ∧ (∀ r ∈ results, r.success = true → r.classNames ≠ [] →
        FSWrite.mk r.filePath (newText r.filePath)
          ∈ processUpdateWrites (replaceClassNamesInFileSpec newText) false
              results) := by
  refine ⟨?_, ?_, ?_⟩
  · unfold processMappings generateMappings
    rw [foldl_mappingStep_keys]
    show (collectClassNames (successfulParses results)).foldl setAdd []
      = collectClassNames (successfulParses results)
    rw [foldl_setAdd_of_fresh _ (collectClassNames_nodup _) (by simp)]
    simp
  · intro f hf1 hf2
    have hsp := successfulParses_map f hf1 hf2 results
    unfold processM processUpdateWrites processMappings generateMappings
    rw [hsp]
  · intro r hr hsucc hne
    have hmem : r ∈ successfulParses results :=
      List.mem_filter.mpr ⟨hr, by simp [hsucc]⟩
    unfold processUpdateWrites
    apply List.mem_flatten.mpr
    refine ⟨[⟨r.filePath, newText r.filePath⟩], ?_, by simp⟩
    apply List.mem_map.mpr
    refine ⟨r, hmem, ?_⟩
    unfold updateSourceFileM replaceClassNamesInFileSpec
    rw [if_pos (List.length_pos.mpr hne)]
    simp

/-- Witness for C7: a run with one successful and one failed file — stuffing
the failed result with junk class names changes nothing, and the successful
file's write is present. -/
theorem parse_failures_isolated_witness :
    (processM .hash "tw-" (fun s => s)
        (replaceClassNamesInFileSpec (fun _ => "new")) (fun _ => .ok []) false
        (([⟨"A.tsx", ["a"], true, none⟩, ⟨"B.tsx", [], false, some "boom"⟩]
          : List ParseResult).map
          (fun r => if r.success = true then r
            else ⟨r.filePath, ["JUNK"], r.success, r.error⟩))
      = processM .hash "tw-" (fun s => s)
        (replaceClassNamesInFileSpec (fun _ => "new")) (fun _ => .ok []) false
        [⟨"A.tsx", ["a"], true, none⟩, ⟨"B.tsx", [], false, some "boom"⟩])
    ∧ FSWrite.mk "A.tsx" "new"
        ∈ processUpdateWrites (replaceClassNamesInFileSpec (fun _ => "new"))
            false
            [⟨"A.tsx", ["a"], true, none⟩, ⟨"B.tsx", [], false, some "boom"⟩] := by
  have h := parse_failures_isolated .hash "tw-" (fun s => s) (fun _ => "new")
    (fun _ => .ok [])
    [⟨"A.tsx", ["a"], true, none⟩, ⟨"B.tsx", [], false, some "boom"⟩]
  refine ⟨h.2.1 _ ?_ ?_,
    h.2.2 ⟨"A.tsx", ["a"], true, none⟩ (by decide) rfl (by decide)⟩
  · intro r
    by_cases hr : r.success = true <;> simp [hr]
  · intro r hr
    simp [hr]

/-! ### The Rewriter at the byte level, modelled from the spec (claim C2)

`src/parser.ts` (`FileParser.replaceClassNamesInFile`) is not in the
snapshot; the rewrite algorithm is modelled from spec §4.4: occurrences carry
half-open byte ranges `[start, stop)` into the original content, and the
rewriter performs a range-preserving rebuild — the gap before each occurrence
is kept, a safe occurrence with a mapping entry is replaced by its short
name, and every other occurrence (in particular every `Dynamic` one) emits
its original bytes. -/

/-- A class-attribute occurrence (spec §3 `ClassOccurrence`): byte range of
the attribute value, safety flag, and the extracted raw value for safe
occurrences. -/
structure Occurrence where
  start : Nat
  stop : Nat
  safe : Bool
  rawValue : String
deriving DecidableEq

/-- The bytes `[a, b)` of the content. -/
def slice (c : List Char) (a b : Nat) : List Char := (c.drop a).take (b - a)

/-- Modelled from the spec: the segment the rewriter emits for one occurrence
(§4.4) — the short name for a safe occurrence with a mapping entry, the
original bytes otherwise (unsafe occurrences are "left untouched and counted
as skipped"). -/
def emittedSegment (c : List Char) (m : List (String × String))
    (o : Occurrence) : List Char :=
  if o.safe then
    match mapFind m o.rawValue with
    | some n => n.data
    | none => slice c o.start o.stop
  else slice c o.start o.stop

/-- Modelled from the spec: the range-preserving rebuild of §4.4, walking the
occurrences in ascending byte-range order from position `pos`. -/
def rewriteGo (c : List Char) (m : List (String × String)) :
    Nat → List Occurrence → List Char
  | pos, [] => c.drop pos
  | pos, o :: rest =>
    slice c pos o.start ++ emittedSegment c m o ++ rewriteGo c m o.stop rest

/-- Modelled from the spec: `rewrite(file_content, occurrences, mapping)`
(§4.4), with the occurrences already in ascending byte-range order. -/
def rewrite (c : List Char) (m : List (String × String))
    (occs : List Occurrence) : List Char :=
  rewriteGo c m 0 occs

/-- The rebuild of an occurrence prefix, ending at byte offset `stop` (the
part of the output strictly before a given occurrence). -/
def rewriteUpTo (c : List Char) (m : List (String × String)) :
    Nat → List Occurrence → Nat → List Char
  | pos, [], stop => slice c pos stop
  | pos, o :: rest, stop =>
    slice c pos o.start ++ emittedSegment c m o ++ rewriteUpTo c m o.stop rest stop

/-- The rebuild splits at any chosen occurrence. -/
theorem rewriteGo_split (c : List Char) (m : List (String × String))
    (l₁ : List Occurrence) (o : Occurrence) (l₂ : List Occurrence) (pos : Nat) :
    rewriteGo c m pos (l₁ ++ o :: l₂)
      = rewriteUpTo c m pos l₁ o.start ++ emittedSegment c m o
          ++ rewriteGo c m o.stop l₂ := by
  induction l₁ generalizing pos with
  | nil => rfl
  | cons p l₁ ih =>
    show slice c pos p.start ++ emittedSegment c m p
        ++ rewriteGo c m p.stop (l₁ ++ o :: l₂) = _
    rw [ih]
    simp only [rewriteUpTo, List.append_assoc]

/-- C2: the rewriter leaves the bytes of every `Dynamic` (unsafe) occurrence
unchanged — for any content and any mapping, the output is the rewritten
prefix, then the occurrence's original bytes verbatim, then the rewritten
suffix. -/
theorem dynamic_occurrence_bytes_unchanged (c : List Char)
    (m : List (String × String)) (l₁ : List Occurrence) (o : Occurrence)
    (l₂ : List Occurrence) (h : o.safe = false) :
    rewrite c m (l₁ ++ o :: l₂)
      = rewriteUpTo c m 0 l₁ o.start ++ slice c o.start o.stop
          ++ rewriteGo c m o.stop l₂ := by
  unfold rewrite
  rw [rewriteGo_split]
  have hseg : emittedSegment c m o = slice c o.start o.stop := by
    simp [emittedSegment, h]
  rw [hseg]

/-- Witness for C2: content `XX{expr}YY` with a safe occurrence over `XX`
(mapped to `Z`) and a dynamic occurrence over `{expr}` — the dynamic bytes
survive verbatim while the safe ones are replaced. -/
theorem dynamic_occurrence_bytes_unchanged_witness :
    rewrite "XX{expr}YY".data [("XX", "Z")]
        ([⟨0, 2, true, "XX"⟩] ++ (⟨2, 8, false, ""⟩ : Occurrence) :: [])
      = rewriteUpTo "XX{expr}YY".data [("XX", "Z")] 0 [⟨0, 2, true, "XX"⟩] 2
          ++ slice "XX{expr}YY".data 2 8
          ++ rewriteGo "XX{expr}YY".data [("XX", "Z")] 8 []
    ∧ rewrite "XX{expr}YY".data [("XX", "Z")]
        ([⟨0, 2, true, "XX"⟩] ++ (⟨2, 8, false, ""⟩ : Occurrence) :: [])
      = "Z{expr}YY".data := by
  refine ⟨dynamic_occurrence_bytes_unchanged "XX{expr}YY".data [("XX", "Z")]
    [⟨0, 2, true, "XX"⟩] ⟨2, 8, false, ""⟩ [] rfl, by decide⟩

/-! ### Rewrite idempotence, modelled from the spec (claim C8)

For the reparse-and-rewrite cycle the file is viewed at the parse level
(spec §4.2/§4.4): a sequence of plain text pieces and class-attribute values,
each attribute either safe (a plain or interpolation-free literal) or
dynamic.  Rewriting maps each safe attribute with a mapping entry to its
short name; reparsing the rewritten file finds the short name as the
attribute's value again. -/

/-- A parse-level piece of a file: surrounding text, or one class attribute
value with its safety classification. -/
inductive Chunk where
  | text : String → Chunk
  | attr : Bool → String → Chunk
deriving DecidableEq

/-- Modelled from the spec: one rewrite pass over a parsed file (§4.4) — a
safe attribute whose value has a mapping entry becomes the short name, all
other chunks are unchanged. -/
def rewriteChunk (m : List (String × String)) : Chunk → Chunk
  | .text s => .text s
  | .attr true v =>
    match mapFind m v with
    | some n => .attr true n
    | none => .attr true v
  | .attr false v => .attr false v

/-- Modelled from the spec: rewriting the whole file. -/
def rewriteFile (m : List (String × String)) (cs : List Chunk) : List Chunk :=
  cs.map (rewriteChunk m)

theorem mapFind_mem {m : List (String × String)} {k v : String}
    (h : mapFind m k = some v) : (k, v) ∈ m := by
  unfold mapFind at h
  rcases hf : m.find? (fun p => p.1 == k) with _ | p
  · rw [hf] at h; cases h
  · rw [hf] at h
    have hp1 : p.1 = k := by simpa using List.find?_some hf
    have hp2 : p.2 = v := by simpa using h
    have := List.mem_of_find?_eq_some hf
    rw [← hp1, ← hp2]
    simpa using this

/-- Counterexample to C8: idempotence fails for an arbitrary mapping — with
the mapping `a ↦ b, b ↦ c`, rewriting the single safe attribute `a` once
gives `b`, and rewriting the result again gives `c`, so the second pass is
not byte-identical to the first. -/
theorem rewrite_not_idempotent_counterexample :
    rewriteFile [("a", "b"), ("b", "c")]
        (rewriteFile [("a", "b"), ("b", "c")] [Chunk.attr true "a"])
      ≠ rewriteFile [("a", "b"), ("b", "c")] [Chunk.attr true "a"]
    ∧ rewriteFile [("a", "b"), ("b", "c")] [Chunk.attr true "a"]
      = [Chunk.attr true "b"]
    ∧ rewriteFile [("a", "b"), ("b", "c")] [Chunk.attr true "b"]
      = [Chunk.attr true "c"] := by
  refine ⟨by decide, by decide, by decide⟩

/-- C8 amended: rewriting is idempotent for every file content and every
mapping none of whose generated short names is itself a rewritable
class-string (no value of the mapping is a key) — rewriting the
already-rewritten file with the same mapping changes nothing. -/
theorem rewrite_idempotent (m : List (String × String)) (cs : List Chunk)
    (h : ∀ p ∈ m, mapHas m p.2 = false) :
    rewriteFile m (rewriteFile m cs) = rewriteFile m cs := by
  unfold rewriteFile
  rw [List.map_map]
  apply List.map_congr_left
  intro c _
  show rewriteChunk m (rewriteChunk m c) = rewriteChunk m c
  match c with
  | .text s => rfl
  | .attr false v => rfl
  | .attr true v =>
    rcases hfind : mapFind m v with _ | n
    · simp [rewriteChunk, hfind]
    · have hmem : (v, n) ∈ m := mapFind_mem hfind
      have hhas : mapHas m n = false := h (v, n) hmem
      have hnone : mapFind m n = none := by
        unfold mapFind
        unfold mapHas at hhas
        rcases hf : m.find? (fun p => p.1 == n) with _ | p
        · rw [hf]
          rfl
        · rw [hf] at hhas
          cases hhas
      simp [rewriteChunk, hfind, hnone]

/-- Witness for the amended C8: the run-shaped mapping `a ↦ tw-x` (its value
is not a key), applied twice to a mixed file. -/
theorem rewrite_idempotent_witness :
    rewriteFile [("a", "tw-x")] (rewriteFile [("a", "tw-x")]
        [Chunk.text "<div ", Chunk.attr true "a", Chunk.attr false "f(y)"])
      = rewriteFile [("a", "tw-x")]
        [Chunk.text "<div ", Chunk.attr true "a", Chunk.attr false "f(y)"] :=
  rewrite_idempotent [("a", "tw-x")]
    [Chunk.text "<div ", Chunk.attr true "a", Chunk.attr false "f(y)"]
    (by decide)

/-! ### Reference semantics of `getMappings` (claim C9)

`getMappings()` returns `new Map(this.mappings)` (src/processor.ts 276-278).
To state that the copy is fresh — mutating it cannot affect the processor —
JS object references are made explicit: a heap maps object ids to `Map`
contents, the processor holds the id of its internal map, and `new Map(x)`
allocates a fresh id holding a copy of `x`'s entries. -/

/-- A heap of `Map` objects: id / contents pairs plus the next fresh id. -/
structure Heap where
  maps : List (Nat × List (String × String))
  next : Nat
deriving DecidableEq

/-- Dereference an object id (empty contents for a dangling id). -/
def heapGet (h : Heap) (id : Nat) : List (String × String) :=
  ((h.maps.find? (fun p => p.1 == id)).map Prod.snd).getD []

/-- Allocate a fresh `Map` with the given contents, returning its id. -/
def heapAlloc (h : Heap) (v : List (String × String)) : Nat × Heap :=
  (h.next, ⟨h.maps ++ [(h.next, v)], h.next + 1⟩)

/-- Mutate the `Map` object behind an id (e.g. `set`/`clear` on it). -/
def heapSet (h : Heap) (id : Nat) (v : List (String × String)) : Heap :=
  ⟨h.maps.map (fun p => if p.1 == id then (id, v) else p), h.next⟩

/-- Every allocated id is below `next` (true of every heap built by
`heapAlloc`). -/
def HeapWF (h : Heap) : Prop := ∀ p ∈ h.maps, p.1 < h.next

/-- `TwmapProcessor.getMappings` (src/processor.ts 276-278):
`return new Map(this.mappings)` — allocate a fresh `Map` holding a copy of
the internal map's entries and return its reference. -/
def getMappings (h : Heap) (selfMappings : Nat) : Nat × Heap :=
  heapAlloc h (heapGet h selfMappings)

theorem find?_eq_none_of_wf {h : Heap} (hwf : HeapWF h) (k : Nat)
    (hk : h.next ≤ k) : h.maps.find? (fun p => p.1 == k) = none := by
  apply List.find?_eq_none.mpr
  intro p hp
  have := hwf p hp
  simp only [beq_iff_eq]
  omega

/-- C9: `getMappings` returns a fresh copy — the returned reference differs
from the internal one, its contents at the call equal the internal contents,
the internal contents are untouched by the call, and overwriting the returned
object afterwards still leaves the internal contents (and hence everything
later derived from them) unchanged. -/
theorem getMappings_returns_fresh_copy (h : Heap) (selfM : Nat)
    (hwf : HeapWF h) (hvalid : selfM < h.next) :
    (getMappings h selfM).1 ≠ selfM
    ∧ heapGet (getMappings h selfM).2 (getMappings h selfM).1 = heapGet h selfM
    ∧ heapGet (getMappings h selfM).2 selfM = heapGet h selfM
    ∧ ∀ v, heapGet (heapSet (getMappings h selfM).2 (getMappings h selfM).1 v)
        selfM = heapGet h selfM := by
  have hne : h.next ≠ selfM := by omega
  have hfind_next : h.maps.find? (fun p => p.1 == h.next) = none :=
    find?_eq_none_of_wf hwf h.next (le_refl _)
  refine ⟨hne, ?_, ?_, ?_⟩
  · show heapGet ⟨h.maps ++ [(h.next, heapGet h selfM)], h.next + 1⟩ h.next
      = heapGet h selfM
    unfold heapGet
    rw [List.find?_append, hfind_next]
    simp
  · show heapGet ⟨h.maps ++ [(h.next, heapGet h selfM)], h.next + 1⟩ selfM
      = heapGet h selfM
    have hb : ((h.next : Nat) == selfM) = false := by simpa using hne
    unfold heapGet
    rw [List.find?_append]
    rcases hf : h.maps.find? (fun p => p.1 == selfM) with _ | p <;>
      simp [hf, List.find?_cons, hb]
  · intro v
    have hmaps : (heapSet (getMappings h selfM).2 (getMappings h selfM).1 v).maps
        = h.maps ++ [(h.next, v)] := by
      show (h.maps ++ [(h.next, heapGet h selfM)]).map
          (fun p => if p.1 == h.next then (h.next, v) else p)
        = h.maps ++ [(h.next, v)]
      rw [List.map_append]
      congr 1
      · have hid : h.maps.map (fun p => if p.1 == h.next then (h.next, v) else p)
            = h.maps.map id := by
          apply List.map_congr_left
          intro p hp
          have hlt := hwf p hp
          have hb : (p.1 == h.next) = false := by
            simp only [beq_eq_false_iff_ne, ne_eq]
            omega
          rw [hb]
          simp
        rw [hid, List.map_id]
      · simp
    have hb : ((h.next : Nat) == selfM) = false := by simpa using hne
    unfold heapGet
    rw [hmaps, List.find?_append]
    rcases hf : h.maps.find? (fun p => p.1 == selfM) with _ | p <;>
      simp [hf, List.find?_cons, hb]

/-- Witness for C9: a one-map heap — the copy gets id 1 ≠ 0, holds the same
entries, and clobbering it leaves the internal map intact. -/
theorem getMappings_returns_fresh_copy_witness :
    (getMappings ⟨[(0, [("a", "tw-0")])], 1⟩ 0).1 ≠ 0
    ∧ heapGet (getMappings ⟨[(0, [("a", "tw-0")])], 1⟩ 0).2
        (getMappings ⟨[(0, [("a", "tw-0")])], 1⟩ 0).1 = [("a", "tw-0")]
    ∧ heapGet (heapSet (getMappings ⟨[(0, [("a", "tw-0")])], 1⟩ 0).2
        (getMappings ⟨[(0, [("a", "tw-0")])], 1⟩ 0).1 []) 0 = [("a", "tw-0")] := by
  have h := getMappings_returns_fresh_copy ⟨[(0, [("a", "tw-0")])], 1⟩ 0
    (by intro p hp; simp at hp; simp [hp]) (by decide)
  refine ⟨h.1, ?_, ?_⟩
  · rw [h.2.1]
    decide
  · rw [h.2.2.2 []]
    decide

/-! ### File discovery (claim C10)

`findFiles` (src/processor.ts 189-208): loop over the input patterns, `glob`
each one (the external collaborator, here `globImpl`), add every match to a
`Set`, and on a glob failure log a warning and continue with the next
pattern; finally return `Array.from(set)`. -/

/-- The pattern loop of `findFiles`, carrying the `Set` of files found so
far. -/
def findFilesAux (globImpl : String → Except String (List String)) :
    List String → List String → List String
  | [], acc => acc
  | pat :: rest, acc =>
    match globImpl pat with
    | .ok ms => findFilesAux globImpl rest (ms.foldl setAdd acc)
    | .error _ => findFilesAux globImpl rest acc

/-- `TwmapProcessor.findFiles` (src/processor.ts 189-208). -/
def findFiles (globImpl : String → Except String (List String))
    (input : List String) : List String :=
  findFilesAux globImpl input []

theorem findFilesAux_nodup (globImpl : String → Except String (List String))
    (ps : List String) {acc : List String} (h : acc.Nodup) :
    (findFilesAux globImpl ps acc).Nodup := by
  induction ps generalizing acc with
  | nil => exact h
  | cons p ps ih =>
    unfold findFilesAux
    rcases globImpl p with e | l
    · exact ih h
    · exact ih (foldl_setAdd_nodup _ h)

theorem mem_findFilesAux (globImpl : String → Except String (List String))
    (ps : List String) (acc : List String) (x : String) :
    x ∈ findFilesAux globImpl ps acc
      ↔ x ∈ acc ∨ ∃ p ∈ ps, ∃ l, globImpl p = .ok l ∧ x ∈ l := by
  induction ps generalizing acc with
  | nil => simp [findFilesAux]
  | cons p ps ih =>
    unfold findFilesAux
    rcases hg : globImpl p with e | l
    · rw [ih]
      simp only [List.mem_cons]
      constructor
      · rintro (hx | ⟨q, hq, hl⟩)
        · exact Or.inl hx
        · exact Or.inr ⟨q, Or.inr hq, hl⟩
      · rintro (hx | ⟨q, hq | hq, l', hl', hx⟩)
        · exact Or.inl hx
        · subst hq
          rw [hg] at hl'
          cases hl'
        · exact Or.inr ⟨q, hq, l', hl', hx⟩
    · rw [ih]
      rw [mem_foldl_setAdd]
      simp only [List.mem_cons]
      constructor
      · rintro ((hx | hx) | ⟨q, hq, hl⟩)
        · exact Or.inl hx
        · exact Or.inr ⟨p, Or.inl rfl, l, hg, hx⟩
        · exact Or.inr ⟨q, Or.inr hq, hl⟩
      · rintro (hx | ⟨q, hq | hq, l', hl', hx⟩)
        · exact Or.inl (Or.inl hx)
        · subst hq
          rw [hg] at hl'
          cases hl'
          exact Or.inl (Or.inr hx)
        · exact Or.inr ⟨q, hq, l', hl', hx⟩

/-- Unfolding equation for one loop iteration. -/
theorem findFilesAux_cons (globImpl : String → Except String (List String))
    (pat : String) (rest acc : List String) :
    findFilesAux globImpl (pat :: rest) acc
      = match globImpl pat with
        | .ok ms => findFilesAux globImpl rest (ms.foldl setAdd acc)
        | .error _ => findFilesAux globImpl rest acc := rfl

theorem findFilesAux_skip_error (globImpl : String → Except String (List String))
    (input₁ : List String) (pat : String) (input₂ : List String) {e : String}
    (herr : globImpl pat = .error e) (acc : List String) :
    findFilesAux globImpl (input₁ ++ pat :: input₂) acc
      = findFilesAux globImpl (input₁ ++ input₂) acc := by
  induction input₁ generalizing acc with
  | nil =>
    rw [List.nil_append, List.nil_append, findFilesAux_cons, herr]
  | cons q input₁ ih =>
    rw [List.cons_append, List.cons_append, findFilesAux_cons, findFilesAux_cons]
    rcases hg : globImpl q with e' | l
    · exact ih acc
    · exact ih _

/-- C10: file discovery returns a duplicate-free list whose members are
exactly the files matched by some successfully-globbed pattern (so a file
matched by several overlapping patterns appears exactly once), and a pattern
whose glob call fails is skipped without disturbing the other patterns'
matches. -/
theorem findFiles_duplicate_free (globImpl : String → Except String (List String))
    (input : List String) :
    (findFiles globImpl input).Nodup
    ∧ (∀ x, x ∈ findFiles globImpl input
        ↔ ∃ p ∈ input, ∃ l, globImpl p = .ok l ∧ x ∈ l)
    ∧ (∀ input₁ pat input₂ e, globImpl pat = .error e →
        findFiles globImpl (input₁ ++ pat :: input₂)
          = findFiles globImpl (input₁ ++ input₂)) := by
  refine ⟨findFilesAux_nodup globImpl input List.nodup_nil, ?_, ?_⟩
  · intro x
    show x ∈ findFilesAux globImpl input [] ↔ _
    rw [mem_findFilesAux]
    simp
  · intro input₁ pat input₂ e herr
    exact findFilesAux_skip_error globImpl input₁ pat input₂ herr []

/-- Witness for C10: two overlapping patterns plus one failing pattern — the
shared match appears once, and dropping the failing pattern changes
nothing. -/
theorem findFiles_duplicate_free_witness :
    findFiles (fun p => if p = "bad" then .error "boom"
        else if p = "**" then .ok ["a.html"] else .ok ["a.html", "b.html"])
      ["*.html", "bad", "**"]
      = findFiles (fun p => if p = "bad" then .error "boom"
        else if p = "**" then .ok ["a.html"] else .ok ["a.html", "b.html"])
      ["*.html", "**"]
    ∧ findFiles (fun p => if p = "bad" then .error "boom"
        else if p = "**" then .ok ["a.html"] else .ok ["a.html", "b.html"])
      ["*.html", "**"] = ["a.html", "b.html"] := by
  have h := (findFiles_duplicate_free (fun p => if p = "bad" then .error "boom"
    else if p = "**" then .ok ["a.html"] else .ok ["a.html", "b.html"])
    ["*.html", "bad", "**"]).2.2 ["*.html"] "bad" ["**"] "boom" (by simp)
  exact ⟨h, by decide⟩

end Twmap
